import Mathlib

/-!
Shallow embedding of the TPC-H Q1 aggregation engine (src/aggregator.rs and
src/expressions.rs of the goose-db repository), together with proofs of the
specified properties.

Modelling conventions:
- Rust u8 bytes are embedded as ℕ (byte 65 = A, 78 = N, 82 = R, 70 = F,
  79 = O, 63 = the fallback byte written as a question mark in the source).
- Rust f64 values carried by the measure columns are embedded as exact
  rationals ℚ; the dedicated binary64 rounding model fpRound below is used
  for the claim that is specifically about IEEE-754 double semantics.
- The mutable 4 x 6 accumulator array is embedded as a total function
  ℕ → ℕ → AggState; the code only ever touches bank indices below 4 and
  slot indices below 6 (hash_key is proved to land in [0,6)).
- The unchecked column reads of the source (get_unchecked, which the Rust
  code performs without any bounds validation) are embedded as List.getD
  with default value 0 / false; all in-bounds behaviour is unaffected.
- Rust Result is embedded as Except; the source function aggregate_batch
  returns Ok on every control path, which the embedding mirrors.
-/

/-- Aggregation state for a single group (struct AggState in aggregator.rs).
The padding field of the source is layout-only and is not part of the value. -/
@[ext]
structure AggState where
  sum_disc_price : ℚ := 0
  sum_charge : ℚ := 0
  count : ℕ := 0
  sum_qty : ℚ := 0
  sum_base_price : ℚ := 0
  sum_discount : ℚ := 0
deriving DecidableEq

instance : Inhabited AggState := ⟨{}⟩

/-- AggState.merge from the source: pairwise addition of every field. -/
def AggState.merge (self other : AggState) : AggState where
  sum_disc_price := self.sum_disc_price + other.sum_disc_price
  sum_charge := self.sum_charge + other.sum_charge
  count := self.count + other.count
  sum_qty := self.sum_qty + other.sum_qty
  sum_base_price := self.sum_base_price + other.sum_base_price
  sum_discount := self.sum_discount + other.sum_discount

/-- AggState.is_empty from the source. -/
def AggState.is_empty (self : AggState) : Bool := self.count == 0

/-- AggState.avg_qty from the source. -/
def AggState.avg_qty (self : AggState) : ℚ :=
  if self.count = 0 then 0 else self.sum_qty / self.count

/-- AggState.avg_price from the source. -/
def AggState.avg_price (self : AggState) : ℚ :=
  if self.count = 0 then 0 else self.sum_base_price / self.count

/-- AggState.avg_disc from the source. -/
def AggState.avg_disc (self : AggState) : ℚ :=
  if self.count = 0 then 0 else self.sum_discount / self.count

/-- The perfect hash of aggregator.rs: flag bytes A/N/R (65/78/82) give flag
index 0/1/2 (anything else falls back to 0), status byte O (79) gives status
index 1, anything else 0; the result is flag_idx * 2 + status_idx. -/
def hash_key (flag status : ℕ) : ℕ :=
  (match flag with
    | 65 => 0
    | 78 => 1
    | 82 => 2
    | _ => 0) * 2 + (if status = 79 then 1 else 0)

/-- The inverse mapping of aggregator.rs: index div 2 selects the flag byte
(65/78/82, with 63 for indices at least 6), index mod 2 selects the status
byte (79 for odd, 70 for even). -/
def unhash_key (idx : ℕ) : ℕ × ℕ :=
  (match idx / 2 with
    | 0 => 65
    | 1 => 78
    | 2 => 82
    | _ => 63,
   if idx % 2 = 1 then 79 else 70)

/-- The aggregator of aggregator.rs: 4 banks of 6 accumulator slots,
embedded as a total function on indices (only banks below 4 and slots
below 6 are ever read or written by the embedded operations). -/
structure Aggregator where
  states : ℕ → ℕ → AggState

/-- Aggregator::new: every slot of every bank starts as the all-zero state. -/
def Aggregator.new : Aggregator := ⟨fun _ _ => {}⟩

/-- Point update of one slot of a 6-slot accumulator array. -/
def updSlot (a : ℕ → AggState) (idx : ℕ) (f : AggState → AggState) :
    ℕ → AggState :=
  fun j => if j = idx then f (a j) else a j

/-- Point update of one slot of one bank of the aggregator. -/
def Aggregator.upd (agg : Aggregator) (bank idx : ℕ) (f : AggState → AggState) :
    Aggregator :=
  ⟨fun b => if b = bank then updSlot (agg.states b) idx f else agg.states b⟩

/-- One record batch as consumed by aggregate_batch: the mask and the two
single-byte categorical columns plus the four f64 measure columns.  The
source reads the flag and status columns byte-wise (one byte per row under
the standard TPC-H single-character layout, which both the fast path and the
slow path of the source produce); the embedding stores that byte per row. -/
structure Batch where
  mask : List Bool
  returnflag : List ℕ
  linestatus : List ℕ
  quantity : List ℚ
  price : List ℚ
  discount : List ℚ
  tax : List ℚ

/-- Unchecked byte-column read of the source, embedded as getD 0. -/
def readByte (l : List ℕ) (i : ℕ) : ℕ := l.getD i 0

/-- Unchecked f64-column read of the source, embedded as getD 0. -/
def readF (l : List ℚ) (i : ℕ) : ℚ := l.getD i 0

/-- The per-row accumulator update of the aggregation loop: with
disc_price = p * (1 - d) and charge = disc_price * (1 + t), add q, p,
disc_price, charge, d to the running sums and 1 to the count. -/
def rowUpdate (q p d t : ℚ) (st : AggState) : AggState :=
  { st with
    sum_qty := st.sum_qty + q
    sum_base_price := st.sum_base_price + p
    sum_disc_price := st.sum_disc_price + p * (1 - d)
    sum_charge := st.sum_charge + p * (1 - d) * (1 + t)
    sum_discount := st.sum_discount + d
    count := st.count + 1 }

/-- Bank assignment of the source loop: rows inside the complete chunks of 4
go to bank (i mod 4); the remainder rows (the last len mod 4 rows) go to
bank 0. -/
def bankOf (len i : ℕ) : ℕ :=
  if i < 4 * (len / 4) then i % 4 else 0

/-- Processing of one row index of the batch: masked-out rows leave the
aggregator untouched, selected rows update slot hash_key(flag, status) of
bank bankOf(len, i) by rowUpdate. -/
def processRow (b : Batch) (agg : Aggregator) (i : ℕ) : Aggregator :=
  if b.mask.getD i false then
    agg.upd (bankOf b.mask.length i)
      (hash_key (readByte b.returnflag i) (readByte b.linestatus i))
      (rowUpdate (readF b.quantity i) (readF b.price i)
        (readF b.discount i) (readF b.tax i))
  else agg

/-- The state transformation of Aggregator::aggregate_batch: fold the
per-row processing over the row indices 0..mask.len(). -/
def Aggregator.aggregate_batch_run (agg : Aggregator) (b : Batch) : Aggregator :=
  (List.range b.mask.length).foldl (processRow b) agg

/-- Aggregator::aggregate_batch.  The source function returns a Result but
has Ok(()) as its only return sites (it performs no shape validation at
all); the embedding therefore always returns Except.ok with the updated
state. -/
def Aggregator.aggregate_batch (agg : Aggregator) (b : Batch) :
    Except String Aggregator :=
  .ok (agg.aggregate_batch_run b)

/-- The bank merge at the head of Aggregator::get_results: final_states
starts as a clone of bank 0 and the banks 1, 2, 3 are merged into it
element-wise, in that order. -/
def merge_banks (agg : Aggregator) : ℕ → AggState :=
  fun j =>
    (((agg.states 0 j).merge (agg.states 1 j)).merge (agg.states 2 j)).merge
      (agg.states 3 j)

/-- Final query result row (struct QueryResult in aggregator.rs). -/
structure QueryResult where
  returnflag : ℕ
  linestatus : ℕ
  sum_qty : ℚ
  sum_base_price : ℚ
  sum_disc_price : ℚ
  sum_charge : ℚ
  avg_qty : ℚ
  avg_price : ℚ
  avg_disc : ℚ
  count : ℕ
deriving DecidableEq

/-- Construction of one result row from a slot index and its merged state,
as in the map inside get_results. -/
def mkResult (idx : ℕ) (st : AggState) : QueryResult :=
  { returnflag := (unhash_key idx).1
    linestatus := (unhash_key idx).2
    sum_qty := st.sum_qty
    sum_base_price := st.sum_base_price
    sum_disc_price := st.sum_disc_price
    sum_charge := st.sum_charge
    avg_qty := st.avg_qty
    avg_price := st.avg_price
    avg_disc := st.avg_disc
    count := st.count }

/-- The comparator of the final sort_by of get_results, as a boolean
less-or-equal test: ascending by returnflag, then by linestatus. -/
def resultLe (a b : QueryResult) : Bool :=
  decide (a.returnflag < b.returnflag ∨
    (a.returnflag = b.returnflag ∧ a.linestatus ≤ b.linestatus))

/-- Stable insertion of one element into a list, the building block of the
embedded stable sort (Rust sort_by is a stable sort). -/
def insertLe (x : QueryResult) : List QueryResult → List QueryResult
  | [] => [x]
  | y :: ys => if resultLe x y then x :: y :: ys else y :: insertLe x ys

/-- Stable sort by the result comparator, modelling Vec::sort_by. -/
def sortResults : List QueryResult → List QueryResult
  | [] => []
  | x :: xs => insertLe x (sortResults xs)

/-- Aggregator::get_results: merge the banks element-wise, keep the
non-empty slots in index order, turn them into result rows, and sort by
(returnflag, linestatus). -/
def Aggregator.get_results (agg : Aggregator) : List QueryResult :=
  sortResults
    (((List.range 6).filter (fun j => !(merge_banks agg j).is_empty)).map
      (fun j => mkResult j (merge_banks agg j)))

/-- Strict ascending order on result rows by (returnflag, linestatus),
the order the spec requires of the finalized sequence. -/
def keyLt (a b : QueryResult) : Prop :=
  a.returnflag < b.returnflag ∨
    (a.returnflag = b.returnflag ∧ a.linestatus < b.linestatus)

/-- State-passing embedding of a call to Aggregator::get_results: the method
borrows the receiver immutably, reads self.states into the local clone
final_states and never writes back, so the translated call returns the
receiver unchanged alongside the result rows. -/
def Aggregator.get_results_call (agg : Aggregator) :
    List QueryResult × Aggregator :=
  (agg.get_results, agg)

/-- One selected row as consumed by the reference serial accumulator:
the two key bytes and the four measure values. -/
structure SelRow where
  f : ℕ
  s : ℕ
  q : ℚ
  p : ℚ
  d : ℚ
  t : ℚ

/-- The selection function on one row index of a batch. -/
def selAt (b : Batch) (i : ℕ) : Option SelRow :=
  if b.mask.getD i false then
    some ⟨readByte b.returnflag i, readByte b.linestatus i,
      readF b.quantity i, readF b.price i, readF b.discount i, readF b.tax i⟩
  else none

/-- The selected rows of a batch, in row order. -/
def selRows (b : Batch) : List SelRow :=
  (List.range b.mask.length).filterMap (selAt b)

/-- The selected rows of a sequence of batches, in processing order. -/
def selRowsAll : List Batch → List SelRow
  | [] => []
  | b :: bs => selRows b ++ selRowsAll bs

/-- Modelled from the spec: one step of the single serial accumulator the
multi-bank design is compared against — the same per-row update applied to
one 6-slot accumulator array. -/
def serialStep (acc : ℕ → AggState) (r : SelRow) : ℕ → AggState :=
  updSlot acc (hash_key r.f r.s) (rowUpdate r.q r.p r.d r.t)

/-- Modelled from the spec: accumulating a list of selected rows serially
into a single accumulator that starts at zero. -/
def serialRun (rows : List SelRow) : ℕ → AggState :=
  rows.foldl serialStep (fun _ => {})

/-- Folding aggregate_batch over a sequence of batches. -/
def runBatches (agg : Aggregator) : List Batch → Aggregator
  | [] => agg
  | b :: bs => runBatches (agg.aggregate_batch_run b) bs

/-! ### Binary64 model for the derived-expression claim

The derived expressions of the source are f64 computations.  The model
below implements IEEE-754 binary64 round-to-nearest-even for nonzero finite
values in the normal range (which covers every value occurring in the
concrete scenario of the claim): a value is scaled by the power of two that
brings it into [2^52, 2^53), rounded to an integer with ties to even, and
scaled back. -/

/-- Round a rational to the nearest integer, ties to even. -/
def rne (x : ℚ) : ℤ :=
  let n := ⌊x⌋
  let r := x - n
  if r < 1/2 then n
  else if 1/2 < r then n + 1
  else if n % 2 = 0 then n else n + 1

/-- Binary64 rounding of a positive rational in the normal range: with e the
floor of the base-2 logarithm, the value is scaled into [2^52, 2^53),
rounded to an integer with ties to even, and scaled back. -/
def fpRoundPos (x : ℚ) : ℚ :=
  let e := Int.log 2 x
  (rne (x * 2 ^ (52 - e)) : ℚ) * 2 ^ (e - 52)

/-- Binary64 rounding (round to nearest, ties to even) of a rational. -/
def fpRound (x : ℚ) : ℚ :=
  if x = 0 then 0
  else if x < 0 then -fpRoundPos (-x)
  else fpRoundPos x

/-- Binary64 addition. -/
def fpAdd (a b : ℚ) : ℚ := fpRound (a + b)

/-- Binary64 subtraction. -/
def fpSub (a b : ℚ) : ℚ := fpRound (a - b)

/-- Binary64 multiplication. -/
def fpMul (a b : ℚ) : ℚ := fpRound (a * b)

/-- The inline per-row derived price of the aggregation loop,
disc_price = price * (1 - discount), at binary64 precision. -/
def disc_price_inline (p d : ℚ) : ℚ := fpMul p (fpSub 1 d)

/-- The inline per-row derived charge of the aggregation loop,
charge = disc_price * (1 + tax), at binary64 precision. -/
def charge_inline (p d t : ℚ) : ℚ := fpMul (disc_price_inline p d) (fpAdd 1 t)

/-- Computed expression columns (struct ComputedExpressions in
expressions.rs). -/
structure ComputedExpressions where
  disc_price : List ℚ
  charge : List ℚ

/-- evaluate_expressions from expressions.rs: batch-wide elementwise
evaluation of (1 - discount), price * (1 - discount), (1 + tax) and
disc_price * (1 + tax), at binary64 precision per operation. -/
def evaluate_expressions (price discount tax : List ℚ) : ComputedExpressions :=
  let one_minus_discount := discount.map (fun d => fpSub 1 d)
  let disc_price := (price.zip one_minus_discount).map (fun x => fpMul x.1 x.2)
  let one_plus_tax := tax.map (fun t => fpAdd 1 t)
  let charge := (disc_price.zip one_plus_tax).map (fun x => fpMul x.1 x.2)
  ⟨disc_price, charge⟩

/-! ### Concrete inputs used by witnesses and counterexamples -/

/-- A batch whose mask is entirely false. -/
def allFalseBatch : Batch :=
  ⟨[false, false, false, false, false],
   [65, 78, 82, 65, 78], [70, 79, 70, 79, 70],
   [1, 2, 3, 4, 5], [10, 20, 30, 40, 50],
   [0, 0, 0, 0, 0], [0, 0, 0, 0, 0]⟩

/-- A shape-mismatched batch: the mask selects one row but every column is
empty. -/
def badBatch : Batch := ⟨[true], [], [], [], [], [], []⟩

/-- The aggregator state after feeding the mismatched batch to a fresh
aggregator. -/
def badAgg : Aggregator := Aggregator.new.aggregate_batch_run badBatch

/-- A one-row batch carrying a negative quantity. -/
def negBatch : Batch := ⟨[true], [65], [70], [-1], [0], [0], [0]⟩

/-- A well-formed nonnegative one-row batch. -/
def goodBatch : Batch := ⟨[true], [65], [70], [1], [10], [0], [0]⟩

/-- Field-wise order on accumulator states: every sum and the count of the
first state is at most the corresponding field of the second. -/
def AggState.le (a b : AggState) : Prop :=
  a.sum_disc_price ≤ b.sum_disc_price ∧ a.sum_charge ≤ b.sum_charge ∧
    a.count ≤ b.count ∧ a.sum_qty ≤ b.sum_qty ∧
    a.sum_base_price ≤ b.sum_base_price ∧ a.sum_discount ≤ b.sum_discount

/-! ## Helper lemmas -/

theorem hash_key_lt_six (flag status : ℕ) : hash_key flag status < 6 := by
  unfold hash_key
  split <;> split <;> omega

theorem getD_eq_false_of_all_false {m : List Bool} (h : ∀ x ∈ m, x = false)
    (i : ℕ) : m.getD i false = false := by
  rcases e : m[i]? with _ | v
  · simp [List.getD_eq_getElem?_getD, e]
  · have hv := h v (List.getElem?_mem e)
    simp [List.getD_eq_getElem?_getD, e, hv]

theorem foldl_processRow_id {b : Batch} (hmask : ∀ x ∈ b.mask, x = false) :
    ∀ (l : List ℕ) (agg : Aggregator), l.foldl (processRow b) agg = agg := by
  intro l
  induction l with
  | nil => intro agg; rfl
  | cons i t ih =>
    intro agg
    have hstep : processRow b agg i = agg := by
      unfold processRow
      rw [getD_eq_false_of_all_false hmask]
      simp
    rw [List.foldl_cons, hstep, ih agg]

/-! ## Claims -/

/-- C1: a batch whose mask is entirely false contributes nothing: on every
aggregator state, aggregate_batch returns Ok with every field of every slot
of every bank unchanged. -/
theorem aggregate_batch_all_false_mask (agg : Aggregator) (b : Batch)
    (h : ∀ x ∈ b.mask, x = false) :
    agg.aggregate_batch b = .ok agg := by
  unfold Aggregator.aggregate_batch Aggregator.aggregate_batch_run
  rw [foldl_processRow_id h]

/-- Witness for C1: on a fresh aggregator, an all-false-mask batch leaves
the state exactly as it was. -/
theorem aggregate_batch_all_false_mask_witness :
    (∀ x ∈ allFalseBatch.mask, x = false) ∧
    Aggregator.new.aggregate_batch allFalseBatch = .ok Aggregator.new :=
  ⟨by decide, aggregate_batch_all_false_mask _ _ (by decide)⟩

/-- C3: the perfect hash is a bijection between the six valid keys and
[0,6): hash_key inverts unhash_key on every index below 6, and unhash_key
inverts hash_key on every valid (flag, status) pair. -/
theorem hash_unhash_bijection :
    (∀ i : Fin 6, hash_key (unhash_key i.val).1 (unhash_key i.val).2 = i.val) ∧
    (∀ flag status : ℕ, (flag = 65 ∨ flag = 78 ∨ flag = 82) →
      (status = 70 ∨ status = 79) →
      unhash_key (hash_key flag status) = (flag, status)) := by
  constructor
  · decide
  · rintro flag status (rfl | rfl | rfl) (rfl | rfl) <;> rfl

/-- Witness for C3 at the valid pair (82, 79), byte codes of R and O. -/
theorem hash_unhash_bijection_witness :
    ((82 : ℕ) = 65 ∨ (82 : ℕ) = 78 ∨ (82 : ℕ) = 82) ∧
    ((79 : ℕ) = 70 ∨ (79 : ℕ) = 79) ∧
    unhash_key (hash_key 82 79) = (82, 79) :=
  ⟨by decide, by decide, hash_unhash_bijection.2 82 79 (by decide) (by decide)⟩

/-- C5: on every flag byte outside the known alphabet and every status
byte, hash_key is total (the embedding is a total function, mirroring the
panic-free match of the source), stays strictly below 6, and treats the
unknown flag as flag slot 0, so the result is 1 exactly when the status
byte is 79 and 0 otherwise. -/
theorem hash_key_unknown_flag (flag status : ℕ)
    (h65 : flag ≠ 65) (h78 : flag ≠ 78) (h82 : flag ≠ 82) :
    hash_key flag status < 6 ∧
    hash_key flag status = (if status = 79 then 1 else 0) := by
  refine ⟨hash_key_lt_six flag status, ?_⟩
  unfold hash_key
  split <;> omega

/-- Witness for C5 at flag byte 88, an unknown categorical value. -/
theorem hash_key_unknown_flag_witness :
    ((88 : ℕ) ≠ 65 ∧ (88 : ℕ) ≠ 78 ∧ (88 : ℕ) ≠ 82) ∧
    hash_key 88 70 < 6 ∧ hash_key 88 70 = (if (70 : ℕ) = 79 then 1 else 0) :=
  ⟨by decide, hash_key_unknown_flag 88 70 (by decide) (by decide) (by decide)⟩

/-- C10: every status byte other than 79 is treated as 70: the row hashes
into the same slot as the (flag, F) group. -/
theorem hash_key_status_fallback (flag status : ℕ) (h : status ≠ 79) :
    hash_key flag status = hash_key flag 70 := by
  unfold hash_key
  simp [h]

/-- Witness for C10 at status byte 71, an unknown status value. -/
theorem hash_key_status_fallback_witness :
    ((71 : ℕ) ≠ 79) ∧ hash_key 65 71 = hash_key 65 70 :=
  ⟨by decide, hash_key_status_fallback 65 71 (by decide)⟩

/-- C7: finalization is reproducible: the state-passing embedding of a
get_results call returns the receiver unchanged, and a second call on that
returned state produces an identical sequence of result rows. -/
theorem get_results_reproducible (agg : Aggregator) :
    agg.get_results_call.1 = agg.get_results_call.2.get_results_call.1 ∧
    agg.get_results_call.2 = agg :=
  ⟨rfl, rfl⟩

theorem merge_rowUpdate_left (q p d t : ℚ) (a b : AggState) :
    (rowUpdate q p d t a).merge b = rowUpdate q p d t (a.merge b) := by
  unfold AggState.merge rowUpdate
  ext <;> dsimp <;> ring

theorem merge_rowUpdate_right (q p d t : ℚ) (a b : AggState) :
    a.merge (rowUpdate q p d t b) = rowUpdate q p d t (a.merge b) := by
  unfold AggState.merge rowUpdate
  ext <;> dsimp <;> ring

theorem bankOf_lt (len i : ℕ) : bankOf len i < 4 := by
  unfold bankOf
  split <;> omega

theorem merge_banks_upd (agg : Aggregator) (bank idx : ℕ) (hbank : bank < 4)
    (q p d t : ℚ) :
    merge_banks (agg.upd bank idx (rowUpdate q p d t)) =
      updSlot (merge_banks agg) idx (rowUpdate q p d t) := by
  funext j
  by_cases hj : j = idx
  · subst hj
    interval_cases bank <;>
      simp [merge_banks, Aggregator.upd, updSlot, merge_rowUpdate_left,
        merge_rowUpdate_right]
  · interval_cases bank <;>
      simp [merge_banks, Aggregator.upd, updSlot, hj]

theorem merge_banks_foldl (b : Batch) :
    ∀ (l : List ℕ) (agg : Aggregator),
      merge_banks (l.foldl (processRow b) agg) =
        (l.filterMap (selAt b)).foldl serialStep (merge_banks agg) := by
  intro l
  induction l with
  | nil => intro agg; rfl
  | cons i t ih =>
    intro agg
    rw [List.foldl_cons, ih]
    rcases hm : b.mask.getD i false with _ | _
    · have hp : processRow b agg i = agg := by
        unfold processRow
        rw [hm]
        simp
      have hs : selAt b i = none := by
        unfold selAt
        rw [hm]
        simp
      rw [hp, List.filterMap_cons_none hs]
    · have hrow : merge_banks (processRow b agg i) =
          serialStep (merge_banks agg)
            ⟨readByte b.returnflag i, readByte b.linestatus i,
              readF b.quantity i, readF b.price i, readF b.discount i,
              readF b.tax i⟩ := by
        unfold processRow serialStep
        rw [hm]
        simp only [if_true]
        exact merge_banks_upd agg _ _ (bankOf_lt b.mask.length i) _ _ _ _
      have hs : selAt b i = some
          ⟨readByte b.returnflag i, readByte b.linestatus i,
            readF b.quantity i, readF b.price i, readF b.discount i,
            readF b.tax i⟩ := by
        unfold selAt
        rw [hm]
        simp
      rw [hrow, List.filterMap_cons_some hs, List.foldl_cons]

theorem merge_banks_runBatches :
    ∀ (bs : List Batch) (agg : Aggregator),
      merge_banks (runBatches agg bs) =
        (selRowsAll bs).foldl serialStep (merge_banks agg) := by
  intro bs
  induction bs with
  | nil => intro agg; rfl
  | cons b t ih =>
    intro agg
    show merge_banks (runBatches (agg.aggregate_batch_run b) t) = _
    rw [ih, selRowsAll, List.foldl_append]
    congr 1
    exact merge_banks_foldl b _ agg

theorem merge_banks_new :
    merge_banks Aggregator.new = fun _ => ({} : AggState) := by
  funext j
  unfold merge_banks Aggregator.new AggState.merge
  ext <;> simp

/-- C2: for every sequence of batches, distributing the selected rows over
the four banks as the aggregation loop does (position within the chunk of
4, remainder rows into bank 0) and merging the banks element-wise as
get_results does yields, for every group slot, exactly the totals of
accumulating the same selected rows serially into a single accumulator. -/
theorem multi_bank_equals_serial (bs : List Batch) :
    merge_banks (runBatches Aggregator.new bs) = serialRun (selRowsAll bs) := by
  rw [merge_banks_runBatches, merge_banks_new]
  rfl

theorem unhash_strict :
    ∀ i j : Fin 6, i < j →
      ((unhash_key i.val).1 < (unhash_key j.val).1 ∨
        ((unhash_key i.val).1 = (unhash_key j.val).1 ∧
          (unhash_key i.val).2 < (unhash_key j.val).2)) := by
  decide

theorem keyLt_mkResult {i j : ℕ} (hi : i < 6) (hj : j < 6) (hij : i < j)
    (st1 st2 : AggState) : keyLt (mkResult i st1) (mkResult j st2) := by
  have h := unhash_strict ⟨i, hi⟩ ⟨j, hj⟩ (Fin.mk_lt_mk.mpr hij)
  simpa [keyLt, mkResult] using h

theorem keyLt_le {a b : QueryResult} (h : keyLt a b) : resultLe a b = true := by
  unfold resultLe
  rcases h with h | ⟨h1, h2⟩
  · simp [h]
  · simp [h1, le_of_lt h2]

theorem sortResults_eq_of_sorted :
    ∀ l : List QueryResult, l.Pairwise (fun a b => resultLe a b = true) →
      sortResults l = l := by
  intro l
  induction l with
  | nil => intro _; rfl
  | cons x xs ih =>
    intro h
    rcases List.pairwise_cons.mp h with ⟨hx, hxs⟩
    unfold sortResults
    rw [ih hxs]
    cases xs with
    | nil => rfl
    | cons y ys =>
      unfold insertLe
      rw [hx y (by simp)]
      simp

/-- C6: on every aggregator state, the sequence returned by get_results is
strictly ascending in (returnflag, linestatus); in particular no two rows
carry the same key. -/
theorem get_results_strictly_sorted (agg : Aggregator) :
    agg.get_results.Pairwise keyLt := by
  unfold Aggregator.get_results
  have hrange : (List.range 6).Pairwise (· < ·) := List.pairwise_lt_range 6
  have hfilter := hrange.filter (fun j => !(merge_banks agg j).is_empty)
  have hmem : ∀ j ∈ (List.range 6).filter
      (fun j => !(merge_banks agg j).is_empty), j < 6 := by
    intro j hjmem
    have := (List.mem_filter.mp hjmem).1
    exact List.mem_range.mp this
  have hpre : (((List.range 6).filter
      (fun j => !(merge_banks agg j).is_empty)).map
        (fun j => mkResult j (merge_banks agg j))).Pairwise keyLt := by
    rw [List.pairwise_map]
    refine hfilter.imp_of_mem ?_
    intro a b ha hb hab
    exact keyLt_mkResult (hmem a ha) (hmem b hb) hab _ _
  rw [sortResults_eq_of_sorted _ (hpre.imp keyLt_le)]
  exact hpre

/-- C4 (amended): aggregate_batch performs no shape validation at all — on
every input, including batches whose columns have unequal lengths, it
returns Ok (the source has no error return path) after processing
mask-many rows with unchecked column reads. -/
theorem aggregate_batch_never_errors (agg : Aggregator) (b : Batch) :
    ∃ s, agg.aggregate_batch b = .ok s :=
  ⟨agg.aggregate_batch_run b, rfl⟩

/-- Counterexample for C4 as stated: a batch whose mask selects one row
while every column is empty is not rejected — the call returns Ok and the
accumulator state is mutated (the count of slot 0 of bank 0 becomes 1). -/
theorem aggregate_batch_no_shape_check :
    Aggregator.new.aggregate_batch badBatch = .ok badAgg ∧
    (badAgg.states 0 0).count = 1 ∧ ((Aggregator.new).states 0 0).count = 0 :=
  ⟨rfl, by decide, rfl⟩

theorem AggState.le_refl (a : AggState) : a.le a := by
  unfold AggState.le
  exact ⟨le_rfl, le_rfl, le_rfl, le_rfl, le_rfl, le_rfl⟩

theorem AggState.le_trans {a b c : AggState} (h1 : a.le b) (h2 : b.le c) :
    a.le c := by
  obtain ⟨a1, a2, a3, a4, a5, a6⟩ := h1
  obtain ⟨b1, b2, b3, b4, b5, b6⟩ := h2
  exact ⟨a1.trans b1, a2.trans b2, a3.trans b3, a4.trans b4, a5.trans b5,
    a6.trans b6⟩

theorem getD_nonneg {l : List ℚ} (h : ∀ x ∈ l, 0 ≤ x) (i : ℕ) :
    0 ≤ l.getD i 0 := by
  rcases e : l[i]? with _ | v
  · simp [List.getD_eq_getElem?_getD, e]
  · have hv := h v (List.getElem?_mem e)
    simp [List.getD_eq_getElem?_getD, e, hv]

theorem getD_unit_interval {l : List ℚ} (h : ∀ x ∈ l, 0 ≤ x ∧ x ≤ 1) (i : ℕ) :
    0 ≤ l.getD i 0 ∧ l.getD i 0 ≤ 1 := by
  rcases e : l[i]? with _ | v
  · simp [List.getD_eq_getElem?_getD, e]
  · have hv := h v (List.getElem?_mem e)
    simpa [List.getD_eq_getElem?_getD, e] using hv

theorem rowUpdate_le (st : AggState) {q p d t : ℚ} (hq : 0 ≤ q) (hp : 0 ≤ p)
    (hd0 : 0 ≤ d) (hd1 : d ≤ 1) (ht : 0 ≤ t) :
    st.le (rowUpdate q p d t st) := by
  have h1 : 0 ≤ p * (1 - d) := mul_nonneg hp (by linarith)
  have h2 : 0 ≤ p * (1 - d) * (1 + t) := mul_nonneg h1 (by linarith)
  unfold AggState.le rowUpdate
  dsimp only
  exact ⟨by linarith, by linarith, Nat.le_succ _, by linarith, by linarith,
    by linarith⟩

theorem processRow_le {b : Batch}
    (hq : ∀ x ∈ b.quantity, 0 ≤ x) (hp : ∀ x ∈ b.price, 0 ≤ x)
    (hd : ∀ x ∈ b.discount, 0 ≤ x ∧ x ≤ 1) (ht : ∀ x ∈ b.tax, 0 ≤ x)
    (agg : Aggregator) (i bank j : ℕ) :
    (agg.states bank j).le ((processRow b agg i).states bank j) := by
  unfold processRow
  split
  · unfold Aggregator.upd updSlot
    dsimp only
    by_cases hb : bank = bankOf b.mask.length i
    · by_cases hj :
        j = hash_key (readByte b.returnflag i) (readByte b.linestatus i)
      · rw [if_pos hb, if_pos hj]
        exact rowUpdate_le _ (getD_nonneg hq i) (getD_nonneg hp i)
          (getD_unit_interval hd i).1 (getD_unit_interval hd i).2
          (getD_nonneg ht i)
      · rw [if_pos hb, if_neg hj]
        exact AggState.le_refl _
    · rw [if_neg hb]
      exact AggState.le_refl _
  · exact AggState.le_refl _

theorem foldl_processRow_le {b : Batch}
    (hq : ∀ x ∈ b.quantity, 0 ≤ x) (hp : ∀ x ∈ b.price, 0 ≤ x)
    (hd : ∀ x ∈ b.discount, 0 ≤ x ∧ x ≤ 1) (ht : ∀ x ∈ b.tax, 0 ≤ x) :
    ∀ (l : List ℕ) (agg : Aggregator) (bank j : ℕ),
      (agg.states bank j).le ((l.foldl (processRow b) agg).states bank j) := by
  intro l
  induction l with
  | nil => intro agg bank j; exact AggState.le_refl _
  | cons i t ih =>
    intro agg bank j
    rw [List.foldl_cons]
    exact AggState.le_trans (processRow_le hq hp hd ht agg i bank j)
      (ih _ bank j)

/-- C8 (amended): on a fresh Aggregator every field of every slot of every
bank is exactly zero, and aggregate_batch never decreases any accumulator
field provided the measure columns of the batch are in range (quantities,
prices and taxes nonnegative, discounts within [0,1] — the ranges of valid
TPC-H data); counts never decrease unconditionally by the same theorem
applied to batches meeting these bounds. -/
theorem accumulators_zero_init_and_monotone :
    (∀ bank j, Aggregator.new.states bank j = ({} : AggState)) ∧
    (∀ (agg : Aggregator) (b : Batch),
      (∀ x ∈ b.quantity, 0 ≤ x) → (∀ x ∈ b.price, 0 ≤ x) →
      (∀ x ∈ b.discount, 0 ≤ x ∧ x ≤ 1) → (∀ x ∈ b.tax, 0 ≤ x) →
      ∀ bank j, (agg.states bank j).le
        ((agg.aggregate_batch_run b).states bank j)) := by
  refine ⟨fun bank j => rfl, ?_⟩
  intro agg b hq hp hd ht bank j
  exact foldl_processRow_le hq hp hd ht _ agg bank j

/-- Witness for C8: a nonnegative one-row batch on a fresh aggregator only
grows the accumulator fields. -/
theorem accumulators_zero_init_and_monotone_witness :
    (∀ x ∈ goodBatch.quantity, (0:ℚ) ≤ x) ∧
    (∀ x ∈ goodBatch.price, (0:ℚ) ≤ x) ∧
    (∀ x ∈ goodBatch.discount, (0:ℚ) ≤ x ∧ x ≤ 1) ∧
    (∀ x ∈ goodBatch.tax, (0:ℚ) ≤ x) ∧
    ((Aggregator.new.states 0 0).le
      ((Aggregator.new.aggregate_batch_run goodBatch).states 0 0)) :=
  ⟨by simp [goodBatch], by simp [goodBatch], by simp [goodBatch],
    by simp [goodBatch],
    accumulators_zero_init_and_monotone.2 Aggregator.new goodBatch
      (by simp [goodBatch]) (by simp [goodBatch]) (by simp [goodBatch])
      (by simp [goodBatch]) 0 0⟩

/-- Counterexample for C8 as stated: a selected row carrying a negative
quantity strictly decreases sum_qty of its group, so accumulator fields are
not unconditionally non-decreasing. -/
theorem aggregate_batch_can_decrease_sum :
    ((Aggregator.new.aggregate_batch_run negBatch).states 0 0).sum_qty <
      ((Aggregator.new).states 0 0).sum_qty := by
  have h1 : List.range 1 = [0] := rfl
  norm_num [Aggregator.aggregate_batch_run, h1, processRow, negBatch,
    Aggregator.new, Aggregator.upd, updSlot, rowUpdate, readF, readByte,
    hash_key, bankOf]

theorem qlog_eq {r : ℚ} {e : ℤ} (h0 : 0 < r) (h1 : (2:ℚ) ^ e ≤ r)
    (h2 : r < (2:ℚ) ^ (e + 1)) : Int.log 2 r = e := by
  have hle : e ≤ Int.log 2 r := by
    rw [← Int.zpow_le_iff_le_log one_lt_two h0]
    exact_mod_cast h1
  have hlt : Int.log 2 r < e + 1 := by
    rw [← Int.lt_zpow_iff_log_lt one_lt_two h0]
    exact_mod_cast h2
  omega

theorem fpRound_tenth : fpRound (1/10) = 3602879701896397 / 2 ^ 55 := by
  have hlog : Int.log 2 ((1:ℚ)/10) = -4 :=
    qlog_eq (by norm_num) (by norm_num) (by norm_num)
  unfold fpRound fpRoundPos
  rw [if_neg (by norm_num), if_neg (by norm_num), hlog]
  norm_num [rne]

theorem fpSub_pointnine :
    fpSub 1 (3602879701896397 / 2 ^ 55) = 8106479329266893 / 2 ^ 53 := by
  unfold fpSub
  have hv : (1:ℚ) - 3602879701896397 / 2 ^ 55 =
      32425917317067571 / 2 ^ 55 := by norm_num
  rw [hv]
  have hlog : Int.log 2 ((32425917317067571:ℚ) / 2 ^ 55) = -1 :=
    qlog_eq (by norm_num) (by norm_num) (by norm_num)
  unfold fpRound fpRoundPos
  rw [if_neg (by norm_num), if_neg (by norm_num), hlog]
  norm_num [rne]

theorem fpMul_ninety :
    fpMul 100 (8106479329266893 / 2 ^ 53) = 90 := by
  unfold fpMul
  have hv : (100:ℚ) * (8106479329266893 / 2 ^ 53) =
      810647932926689300 / 2 ^ 53 := by norm_num
  rw [hv]
  have hlog : Int.log 2 ((810647932926689300:ℚ) / 2 ^ 53) = 6 :=
    qlog_eq (by norm_num) (by norm_num) (by norm_num)
  unfold fpRound fpRoundPos
  rw [if_neg (by norm_num), if_neg (by norm_num), hlog]
  norm_num [rne]

theorem fpRound_twentieth : fpRound (1/20) = 3602879701896397 / 2 ^ 56 := by
  have hlog : Int.log 2 ((1:ℚ)/20) = -5 :=
    qlog_eq (by norm_num) (by norm_num) (by norm_num)
  unfold fpRound fpRoundPos
  rw [if_neg (by norm_num), if_neg (by norm_num), hlog]
  norm_num [rne]

theorem fpAdd_oneplus :
    fpAdd 1 (3602879701896397 / 2 ^ 56) = 4728779608739021 / 2 ^ 52 := by
  unfold fpAdd
  have hv : (1:ℚ) + 3602879701896397 / 2 ^ 56 =
      75660473739824333 / 2 ^ 56 := by norm_num
  rw [hv]
  have hlog : Int.log 2 ((75660473739824333:ℚ) / 2 ^ 56) = 0 :=
    qlog_eq (by norm_num) (by norm_num) (by norm_num)
  unfold fpRound fpRoundPos
  rw [if_neg (by norm_num), if_neg (by norm_num), hlog]
  norm_num [rne]

theorem fpMul_charge :
    fpMul 90 (4728779608739021 / 2 ^ 52) = 189 / 2 := by
  unfold fpMul
  have hv : (90:ℚ) * (4728779608739021 / 2 ^ 52) =
      425590164786511890 / 2 ^ 52 := by norm_num
  rw [hv]
  have hlog : Int.log 2 ((425590164786511890:ℚ) / 2 ^ 52) = 6 :=
    qlog_eq (by norm_num) (by norm_num) (by norm_num)
  unfold fpRound fpRoundPos
  rw [if_neg (by norm_num), if_neg (by norm_num), hlog]
  norm_num [rne]

/-- C9: the derived expressions are the same computation inline per row and
batch-wide (evaluate_expressions performs, element by element, exactly the
fpMul (fpSub 1 d) and fpMul (fpAdd 1 t) chain of the aggregation loop), and
under the binary64 rounding model the inputs price = 100, discount = the
double nearest 0.1, tax = the double nearest 0.05 yield exactly
derived_price = 90 and derived_charge = 94.5. -/
theorem derived_expressions_correct :
    (∀ (price discount tax : List ℚ),
      (evaluate_expressions price discount tax).disc_price =
        (price.zip discount).map (fun x => disc_price_inline x.1 x.2) ∧
      (evaluate_expressions price discount tax).charge =
        ((price.zip discount).zip tax).map
          (fun x => charge_inline x.1.1 x.1.2 x.2)) ∧
    disc_price_inline 100 (fpRound (1/10)) = 90 ∧
    charge_inline 100 (fpRound (1/10)) (fpRound (1/20)) = 189 / 2 := by
  refine ⟨?_, ?_, ?_⟩
  · intro price discount tax
    constructor
    · unfold evaluate_expressions disc_price_inline
      dsimp only
      rw [List.zip_map_right, List.map_map]
      rfl
    · unfold evaluate_expressions charge_inline disc_price_inline
      dsimp only
      rw [List.zip_map_right, List.map_map, List.zip_map_right, List.map_map,
        List.zip_map_left, List.map_map]
      rfl
  · unfold disc_price_inline
    rw [fpRound_tenth, fpSub_pointnine, fpMul_ninety]
  · unfold charge_inline disc_price_inline
    rw [fpRound_tenth, fpRound_twentieth, fpSub_pointnine, fpMul_ninety,
      fpAdd_oneplus, fpMul_charge]
